import Mathlib

/-!
Shallow embedding of the expression language of `scan_core/src/grammar.rs`:
the type and value algebra, the expression trees, the structural type
checker `Expression::r#type`, the variable-context checker
`Expression::context`, the compiled-closure evaluator
(`FnExpression::from` composed with `FnExpression::eval`), and the operator
smart constructors (`Not`, `Neg`, `Mul`, `iter::Product`,
`Expression::component`).

Modelling conventions:
* Rust `i32` is modelled as `Int` (no claim depends on wrap-around).
* Rust `f64` (`OrderedFloat`) is modelled as `Rat`; every float constant
  appearing in the verified scenarios is exactly representable, and the
  claims under study concern type tags, control flow and exact small
  arithmetic, not rounding.
* Rust `panic!` (including out-of-bounds indexing and `%` by zero) is
  modelled as `Option.none`; `Result` is modelled as `Except`.
* The `Box`ed pairs of the source are flattened into two constructor
  arguments.
* Rust's derived structural `==` on types is modelled by the boolean
  function `tyBeq`, and `matches!(_, Type::...)` patterns by the
  `Ty.is...` discriminators.
-/

/-- The error type for operations with types (`TypeError` in grammar.rs). -/
inductive TypeError where
  | TypeMismatch
  | MissingComponent
  | UnknownVar
  | IndexOutOfBounds
deriving DecidableEq

/-- The types of the language (`Type` in grammar.rs; renamed because `Type`
is a Lean sort). -/
inductive Ty where
  | Boolean
  | Integer
  | Float
  | Product (tuple : List Ty)
  | List (t : Ty)

mutual

/-- Structural equality on types (the derived `PartialEq` of `Type`). -/
def tyBeq : Ty → Ty → Bool
  | .Boolean, .Boolean => true
  | .Integer, .Integer => true
  | .Float, .Float => true
  | .Product ts, .Product us => tyBeqList ts us
  | .List t, .List u => tyBeq t u
  | _, _ => false

/-- Structural equality on lists of types (component lists of products). -/
def tyBeqList : List Ty → List Ty → Bool
  | [], [] => true
  | t :: ts, u :: us => tyBeq t u && tyBeqList ts us
  | _, _ => false

end

/-- `matches!(_, Type::Boolean)`. -/
def Ty.isBoolean : Ty → Bool
  | .Boolean => true
  | _ => false

/-- `matches!(_, Type::Integer)`. -/
def Ty.isInteger : Ty → Bool
  | .Integer => true
  | _ => false

/-- `matches!(_, Type::Integer | Type::Float)`. -/
def Ty.isNumeric : Ty → Bool
  | .Integer => true
  | .Float => true
  | _ => false

/-- Values of the language (`Val` in grammar.rs); floats are modelled as
rationals. -/
inductive Val where
  | Boolean (b : Bool)
  | Integer (i : Int)
  | Float (f : Rat)
  | Tuple (comps : List Val)
  | List (t : Ty) (elems : List Val)

mutual

/-- `Type::default_value`. -/
def Ty.default_value : Ty → Val
  | .Boolean => .Boolean false
  | .Integer => .Integer 0
  | .Float => .Float 0
  | .Product tuple => .Tuple (defaultValues tuple)
  | .List t => .List t []

/-- `Type::default_value` mapped over a list of types (the iterator in the
`Product` arm of `default_value`). -/
def defaultValues : List Ty → List Val
  | [] => []
  | t :: ts => t.default_value :: defaultValues ts

end

mutual

/-- `Val::r#type`. -/
def Val.type : Val → Ty
  | .Boolean _ => .Boolean
  | .Integer _ => .Integer
  | .Float _ => .Float
  | .Tuple comps => .Product (valTypes comps)
  | .List t _ => .List t

/-- `Val::r#type` mapped over the components of a tuple. -/
def valTypes : List Val → List Ty
  | [] => []
  | v :: vs => v.type :: valTypes vs

end

/-- Expression trees (`Expression<V>` in grammar.rs). -/
inductive Expression (V : Type) where
  | Const (val : Val)
  | Var (var : V) (t : Ty)
  | Tuple (exprs : List (Expression V))
  | Component (index : Nat) (expr : Expression V)
  | And (exprs : List (Expression V))
  | Or (exprs : List (Expression V))
  | Implies (lhs rhs : Expression V)
  | Not (expr : Expression V)
  | Opposite (expr : Expression V)
  | Sum (exprs : List (Expression V))
  | Mult (exprs : List (Expression V))
  | Mod (lhs rhs : Expression V)
  | Equal (lhs rhs : Expression V)
  | Greater (lhs rhs : Expression V)
  | GreaterEq (lhs rhs : Expression V)
  | Less (lhs rhs : Expression V)
  | LessEq (lhs rhs : Expression V)
  | Append (list element : Expression V)
  | Truncate (list : Expression V)
  | Len (list : Expression V)

mutual

/-- `Expression::r#type`: structural type checking. -/
def Expression.type {V : Type} : Expression V → Except TypeError Ty
  | .Const val => .ok val.type
  | .Tuple tuple => do
      let ts ← Expression.typeList tuple
      .ok (.Product ts)
  | .Var _ t => .ok t
  | .And props | .Or props => do
      let ts ← Expression.typeList props
      if ts.all Ty.isBoolean then .ok .Boolean else .error .TypeMismatch
  | .Implies lhs rhs => do
      let t0 ← lhs.type
      if t0.isBoolean then
        let t1 ← rhs.type
        if t1.isBoolean then .ok .Boolean else .error .TypeMismatch
      else .error .TypeMismatch
  | .Not prop => do
      let t ← prop.type
      if t.isBoolean then .ok .Boolean else .error .TypeMismatch
  | .Opposite expr => do
      let t ← expr.type
      match t with
      | .Integer => .ok .Integer
      | .Float => .ok .Float
      | _ => .error .TypeMismatch
  | .Sum exprs | .Mult exprs => do
      let types ← Expression.typeList exprs
      if types.all Ty.isInteger then .ok .Integer
      else if types.all Ty.isNumeric then .ok .Float
      else .error .TypeMismatch
  | .Equal lhs rhs | .GreaterEq lhs rhs | .LessEq lhs rhs => do
      let type_0 ← lhs.type
      let type_1 ← rhs.type
      if (type_0.isInteger || type_0.isBoolean) && tyBeq type_0 type_1 then .ok .Boolean
      else .error .TypeMismatch
  | .Greater lhs rhs | .Less lhs rhs => do
      let t0 ← lhs.type
      if t0.isNumeric then
        let t1 ← rhs.type
        if t1.isNumeric then .ok .Boolean else .error .TypeMismatch
      else .error .TypeMismatch
  | .Component index expr => do
      let t ← expr.type
      match t with
      | .Product components =>
          match components[index]? with
          | some c => .ok c
          | none => .error .MissingComponent
      | _ => .error .TypeMismatch
  | .Append list element => do
      let list_type ← list.type
      let element_type ← element.type
      match list_type with
      | .List elements_type =>
          if tyBeq element_type elements_type then .ok (.List elements_type)
          else .error .TypeMismatch
      | _ => .error .TypeMismatch
  | .Truncate list => do
      let list_type ← list.type
      match list_type with
      | .List t => .ok (.List t)
      | _ => .error .TypeMismatch
  | .Len list => do
      let list_type ← list.type
      match list_type with
      | .List _ => .ok .Integer
      | _ => .error .TypeMismatch
  | .Mod lhs rhs => do
      let t0 ← lhs.type
      if t0.isInteger then
        let t1 ← rhs.type
        if t1.isInteger then .ok .Integer else .error .TypeMismatch
      else .error .TypeMismatch

/-- `Expression::r#type` collected over a list of subexpressions
(`collect::<Result<Vec<Type>, TypeError>>`): stops at the first error. -/
def Expression.typeList {V : Type} : List (Expression V) → Except TypeError (List Ty)
  | [] => .ok []
  | e :: es => do
      let t ← e.type
      let ts ← Expression.typeList es
      .ok (t :: ts)

end

mutual

/-- `Expression::context`: every `Var(v, t)` occurrence must satisfy
`vars(v) = Some(t)`. -/
def Expression.context {V : Type} : Expression V → (V → Option Ty) → Except TypeError Unit
  | .Var var t, vars =>
      match vars var with
      | some var_t => if tyBeq var_t t then .ok () else .error .TypeMismatch
      | none => .error .UnknownVar
  | .Const _, _ => .ok ()
  | .Tuple tuple, vars | .And tuple, vars | .Or tuple, vars
  | .Sum tuple, vars | .Mult tuple, vars => Expression.contextList tuple vars
  | .Component _ expr, vars | .Not expr, vars | .Opposite expr, vars
  | .Truncate expr, vars | .Len expr, vars => expr.context vars
  | .Implies e0 e1, vars | .Equal e0 e1, vars | .Greater e0 e1, vars
  | .GreaterEq e0 e1, vars | .Less e0 e1, vars | .LessEq e0 e1, vars
  | .Mod e0 e1, vars | .Append e0 e1, vars => do
      e0.context vars
      e1.context vars

/-- `Expression::context` over a list of subexpressions (`try_for_each`):
stops at the first error. -/
def Expression.contextList {V : Type} : List (Expression V) → (V → Option Ty) → Except TypeError Unit
  | [], _ => .ok ()
  | e :: es, vars => do
      e.context vars
      Expression.contextList es vars

end

mutual

/-- Evaluation of the compiled closure: `FnExpression::from(e).eval(vars)`.
A Rust `panic!` (the evaluator's hard failure) is modelled as `none`. -/
def Expression.eval {V : Type} : Expression V → (V → Val) → Option Val
  | .Const val, _ => some val
  | .Var var _, vars => some (vars var)
  | .Tuple exprs, vars => do
      let vals ← Expression.evalList exprs vars
      some (.Tuple vals)
  | .Component index expr, vars => do
      let v ← expr.eval vars
      match v with
      | .Tuple vals => vals[index]?
      | _ => none
  | .And exprs, vars => Expression.evalAnd exprs vars
  | .Or exprs, vars => Expression.evalOr exprs vars
  | .Implies lhs rhs, vars => do
      let l ← lhs.eval vars
      let r ← rhs.eval vars
      match l, r with
      | .Boolean lb, .Boolean rb => some (.Boolean (rb || !lb))
      | _, _ => none
  | .Not expr, vars => do
      let v ← expr.eval vars
      match v with
      | .Boolean b => some (.Boolean (!b))
      | _ => none
  | .Opposite expr, vars => do
      let v ← expr.eval vars
      match v with
      | .Integer i => some (.Integer (-i))
      | .Float f => some (.Float (-f))
      | _ => none
  | .Sum exprs, vars => Expression.evalSum exprs vars (.Integer 0)
  | .Mult exprs, vars => Expression.evalMult exprs vars (.Integer 0)
  | .Equal lhs rhs, vars => do
      let l ← lhs.eval vars
      let r ← rhs.eval vars
      match l, r with
      | .Integer li, .Integer ri => some (.Boolean (li = ri))
      | .Boolean lb, .Boolean rb => some (.Boolean (lb = rb))
      | _, _ => none
  | .Greater lhs rhs, vars => do
      let l ← lhs.eval vars
      match l with
      | .Integer li =>
          (do
            let r ← rhs.eval vars
            match r with
            | .Integer ri => some (.Boolean (ri < li))
            | .Float rf => some (.Boolean (rf < (li : Rat)))
            | _ => none)
      | .Float lf =>
          (do
            let r ← rhs.eval vars
            match r with
            | .Integer ri => some (.Boolean ((ri : Rat) < lf))
            | .Float rf => some (.Boolean (rf < lf))
            | _ => none)
      | _ => none
  | .GreaterEq lhs rhs, vars => do
      let l ← lhs.eval vars
      let r ← rhs.eval vars
      match l, r with
      | .Integer li, .Integer ri => some (.Boolean (ri ≤ li))
      | _, _ => none
  | .Less lhs rhs, vars => do
      let l ← lhs.eval vars
      match l with
      | .Integer li =>
          (do
            let r ← rhs.eval vars
            match r with
            | .Integer ri => some (.Boolean (li < ri))
            | .Float rf => some (.Boolean ((li : Rat) < rf))
            | _ => none)
      | .Float lf =>
          (do
            let r ← rhs.eval vars
            match r with
            | .Integer ri => some (.Boolean (lf < (ri : Rat)))
            | .Float rf => some (.Boolean (lf < rf))
            | _ => none)
      | _ => none
  | .LessEq lhs rhs, vars => do
      let l ← lhs.eval vars
      let r ← rhs.eval vars
      match l, r with
      | .Integer li, .Integer ri => some (.Boolean (li ≤ ri))
      | _, _ => none
  | .Append list element, vars => do
      let lv ← list.eval vars
      match lv with
      | .List t l =>
          (do
            let ev ← element.eval vars
            if tyBeq ev.type t then some (.List t (l ++ [ev])) else none)
      | _ => none
  | .Truncate list, vars => do
      let lv ← list.eval vars
      match lv with
      | .List t l => if l.isEmpty then none else some (.List t l.dropLast)
      | _ => none
  | .Len list, vars => do
      let lv ← list.eval vars
      match lv with
      | .List _ l => some (.Integer (l.length : Int))
      | _ => none
  | .Mod lhs rhs, vars => do
      let l ← lhs.eval vars
      let r ← rhs.eval vars
      match l, r with
      | .Integer li, .Integer ri => if ri = 0 then none else some (.Integer (Int.tmod li ri))
      | _, _ => none

/-- Evaluation of the compiled `Tuple` components, in declared order. -/
def Expression.evalList {V : Type} : List (Expression V) → (V → Val) → Option (List Val)
  | [], _ => some []
  | e :: es, vars => do
      let v ← e.eval vars
      let vs ← Expression.evalList es vars
      some (v :: vs)

/-- The loop of the compiled `And` closure: children are evaluated
left-to-right, `false` short-circuits, a non-boolean child panics. -/
def Expression.evalAnd {V : Type} : List (Expression V) → (V → Val) → Option Val
  | [], _ => some (.Boolean true)
  | e :: es, vars =>
      match e.eval vars with
      | some (.Boolean b) =>
          if b then Expression.evalAnd es vars else some (.Boolean false)
      | _ => none

/-- The loop of the compiled `Or` closure: children are evaluated
left-to-right, `true` short-circuits, a non-boolean child panics. -/
def Expression.evalOr {V : Type} : List (Expression V) → (V → Val) → Option Val
  | [], _ => some (.Boolean false)
  | e :: es, vars =>
      match e.eval vars with
      | some (.Boolean b) =>
          if b then some (.Boolean true) else Expression.evalOr es vars
      | _ => none

/-- The fold of the compiled `Sum` closure; the accumulator starts from
`Val::Integer(0)` at the call site. -/
def Expression.evalSum {V : Type} : List (Expression V) → (V → Val) → Val → Option Val
  | [], _, acc => some acc
  | e :: es, vars, acc =>
      match acc with
      | .Integer a =>
          (match e.eval vars with
            | some (.Integer i) => Expression.evalSum es vars (.Integer (a + i))
            | some (.Float f) => Expression.evalSum es vars (.Float ((a : Rat) + f))
            | _ => none)
      | .Float a =>
          (match e.eval vars with
            | some (.Integer i) => Expression.evalSum es vars (.Float (a + (i : Rat)))
            | some (.Float f) => Expression.evalSum es vars (.Float (a + f))
            | _ => none)
      | _ => none

/-- The fold of the compiled `Mult` closure; as in the source, the
accumulator starts from `Val::Integer(0)` at the call site. -/
def Expression.evalMult {V : Type} : List (Expression V) → (V → Val) → Val → Option Val
  | [], _, acc => some acc
  | e :: es, vars, acc =>
      match acc with
      | .Integer a =>
          (match e.eval vars with
            | some (.Integer i) => Expression.evalMult es vars (.Integer (a * i))
            | some (.Float f) => Expression.evalMult es vars (.Float ((a : Rat) * f))
            | _ => none)
      | .Float a =>
          (match e.eval vars with
            | some (.Integer i) => Expression.evalMult es vars (.Float (a * (i : Rat)))
            | some (.Float f) => Expression.evalMult es vars (.Float (a * f))
            | _ => none)
      | _ => none

end

/-- The `std::ops::Not` smart constructor on expressions. -/
def Expression.notExpr {V : Type} : Expression V → Expression V
  | .Not sub => sub
  | e => .Not e

/-- The `std::ops::Neg` smart constructor on expressions. -/
def Expression.negExpr {V : Type} : Expression V → Expression V
  | .Opposite sub => sub
  | e => .Opposite e

/-- The `std::ops::Mul` smart constructor on expressions: flattens both
operands into a single `Mult` node. -/
def Expression.mul {V : Type} (lhs rhs : Expression V) : Expression V :=
  .Mult ((match lhs with | .Mult subs => subs | e => [e]) ++
         (match rhs with | .Mult subs => subs | e => [e]))

/-- The `std::iter::Product` instance on expressions:
`iter.reduce(|acc, e| acc * e).unwrap_or(Self::from(1))`. -/
def Expression.product {V : Type} : List (Expression V) → Expression V
  | [] => .Const (.Integer 1)
  | e :: es => es.foldl Expression.mul e

/-- `Expression::component` smart constructor: a literal tuple is indexed
immediately (`args[index]` panics when out of bounds, modelled as `none`);
any other expression is wrapped in a deferred `Component` node. -/
def Expression.component {V : Type} : Expression V → Nat → Option (Expression V)
  | .Tuple args, index => args[index]?
  | e, index => some (.Component index e)

/-- The concrete scenario expression of spec S1/S2:
`Sum([Const(Int 1), Var("x", Int), Mult([Const(Float 2.0), Const(Int 3)])])`. -/
def exprS1 : Expression String :=
  .Sum [.Const (.Integer 1), .Var "x" .Integer,
        .Mult [.Const (.Float 2), .Const (.Integer 3)]]

/-- The resolver mapping the variable `x` to `Int 4`. -/
def resolverX4 : String → Val := fun v => if v = "x" then .Integer 4 else .Integer 0

/-- The resolver mapping the variable `x` to `Int 0`. -/
def resolverX0 : String → Val := fun v => if v = "x" then .Integer 0 else .Integer 0

mutual

theorem tyBeq_eq : ∀ (t u : Ty), tyBeq t u = true ↔ t = u
  | .Boolean, u => by cases u <;> simp [tyBeq]
  | .Integer, u => by cases u <;> simp [tyBeq]
  | .Float, u => by cases u <;> simp [tyBeq]
  | .Product ts, u => by
      cases u <;> simp [tyBeq]
      exact tyBeqList_eq ts _
  | .List t, u => by
      cases u <;> simp [tyBeq]
      exact tyBeq_eq t _

theorem tyBeqList_eq : ∀ (ts us : List Ty), tyBeqList ts us = true ↔ ts = us
  | [], us => by cases us <;> simp [tyBeqList]
  | t :: ts, us => by
      cases us with
      | nil => simp [tyBeqList]
      | cons u us => simp [tyBeqList, tyBeq_eq t u, tyBeqList_eq ts us]

end

instance : DecidableEq Ty := fun t u => decidable_of_iff _ (tyBeq_eq t u)

/-! Inversion and bridging lemmas used by the theorems below. -/

theorem except_bind_ok {ε α β : Type} (a : Except ε α) (f : α → Except ε β) (b : β) :
    (a >>= f) = .ok b ↔ ∃ x, a = .ok x ∧ f x = .ok b := by
  cases a <;> simp [Bind.bind, Except.bind]

theorem valTypes_eq_map : ∀ vs : List Val, valTypes vs = vs.map Val.type := by
  intro vs
  induction vs with
  | nil => rfl
  | cons v vs ih => simp [valTypes, ih]

theorem val_type_integer {v : Val} (h : v.type = Ty.Integer) : ∃ i, v = .Integer i := by
  cases v <;> simp [Val.type] at h ⊢

theorem val_type_float {v : Val} (h : v.type = Ty.Float) : ∃ f, v = .Float f := by
  cases v <;> simp [Val.type] at h ⊢

theorem val_type_product {v : Val} {ts : List Ty} (h : v.type = .Product ts) :
    ∃ vs, v = .Tuple vs ∧ valTypes vs = ts := by
  cases v <;> simp [Val.type] at h ⊢
  exact h

theorem val_type_list {v : Val} {t : Ty} (h : v.type = .List t) :
    ∃ vs, v = .List t vs := by
  cases v <;> simp [Val.type] at h ⊢
  exact h

theorem typeList_cons {V : Type} {e : Expression V} {es : List (Expression V)} {ts : List Ty} :
    Expression.typeList (e :: es) = .ok ts ↔
      ∃ t ts0, e.type = .ok t ∧ Expression.typeList es = .ok ts0 ∧ ts = t :: ts0 := by
  constructor
  · intro h
    simp only [Expression.typeList, except_bind_ok] at h
    obtain ⟨t, ht, h⟩ := h
    obtain ⟨ts0, hts, h⟩ := h
    cases h
    exact ⟨t, ts0, ht, hts, rfl⟩
  · rintro ⟨t, ts0, ht, hts, rfl⟩
    simp only [Expression.typeList, except_bind_ok]
    exact ⟨t, ht, ts0, hts, rfl⟩

theorem typeList_mem_left {V : Type} :
    ∀ {es : List (Expression V)} {ts : List Ty}, Expression.typeList es = .ok ts →
      ∀ e ∈ es, ∃ t ∈ ts, e.type = .ok t := by
  intro es
  induction es with
  | nil => intro ts _ e he; cases he
  | cons e0 es ih =>
      intro ts h e he
      obtain ⟨t, ts0, ht, hts, rfl⟩ := typeList_cons.mp h
      rcases List.mem_cons.mp he with rfl | he
      · exact ⟨t, by simp, ht⟩
      · obtain ⟨u, hu, hut⟩ := ih hts e he
        exact ⟨u, by simp [hu], hut⟩

theorem typeList_mem_right {V : Type} :
    ∀ {es : List (Expression V)} {ts : List Ty}, Expression.typeList es = .ok ts →
      ∀ t ∈ ts, ∃ e ∈ es, e.type = .ok t := by
  intro es
  induction es with
  | nil =>
      intro ts h t ht
      simp [Expression.typeList] at h
      subst h
      cases ht
  | cons e0 es ih =>
      intro ts h t ht
      obtain ⟨t0, ts0, ht0, hts, rfl⟩ := typeList_cons.mp h
      rcases List.mem_cons.mp ht with rfl | ht
      · exact ⟨e0, by simp, ht0⟩
      · obtain ⟨e, he, het⟩ := ih hts t ht
        exact ⟨e, by simp [he], het⟩

theorem contextList_mem {V : Type} {c : V → Option Ty} :
    ∀ {es : List (Expression V)}, Expression.contextList es c = .ok () →
      ∀ e ∈ es, e.context c = .ok () := by
  intro es
  induction es with
  | nil => intro _ e he; cases he
  | cons e0 es ih =>
      intro h e he
      simp only [Expression.contextList, except_bind_ok] at h
      obtain ⟨x, hx, h⟩ := h
      rcases List.mem_cons.mp he with rfl | he
      · exact hx
      · exact ih h e he

theorem option_bind_some {α β : Type} (a : Option α) (f : α → Option β) (b : β) :
    (a >>= f) = some b ↔ ∃ x, a = some x ∧ f x = some b := by
  cases a <;> simp

theorem evalAnd_boolean {V : Type} {vars : V → Val} :
    ∀ {es : List (Expression V)} {v : Val},
      Expression.evalAnd es vars = some v → ∃ b, v = .Boolean b := by
  intro es
  induction es with
  | nil =>
      intro v h
      simp only [Expression.evalAnd, Option.some.injEq] at h
      exact ⟨true, h.symm⟩
  | cons e es ih =>
      intro v h
      rw [Expression.evalAnd] at h
      split at h
      · split at h
        · exact ih h
        · simp only [Option.some.injEq] at h
          exact ⟨false, h.symm⟩
      · exact Option.noConfusion h

theorem evalOr_boolean {V : Type} {vars : V → Val} :
    ∀ {es : List (Expression V)} {v : Val},
      Expression.evalOr es vars = some v → ∃ b, v = .Boolean b := by
  intro es
  induction es with
  | nil =>
      intro v h
      simp only [Expression.evalOr, Option.some.injEq] at h
      exact ⟨false, h.symm⟩
  | cons e es ih =>
      intro v h
      rw [Expression.evalOr] at h
      split at h
      · split at h
        · simp only [Option.some.injEq] at h
          exact ⟨true, h.symm⟩
        · exact ih h
      · exact Option.noConfusion h

theorem evalAnd_shortcircuit {V : Type} {vars : V → Val} :
    ∀ (pre : List (Expression V)) (ef : Expression V) (post : List (Expression V)),
      (∀ e ∈ pre, e.eval vars = some (.Boolean true)) →
      ef.eval vars = some (.Boolean false) →
      Expression.evalAnd (pre ++ ef :: post) vars = some (.Boolean false) := by
  intro pre
  induction pre with
  | nil =>
      intro ef post _ hf
      simp [Expression.evalAnd, hf]
  | cons e pre ih =>
      intro ef post hpre hf
      have he : e.eval vars = some (.Boolean true) := hpre e (by simp)
      simp only [List.cons_append, Expression.evalAnd, he]
      exact ih ef post (fun e' h' => hpre e' (by simp [h'])) hf

theorem evalOr_shortcircuit {V : Type} {vars : V → Val} :
    ∀ (pre : List (Expression V)) (et : Expression V) (post : List (Expression V)),
      (∀ e ∈ pre, e.eval vars = some (.Boolean false)) →
      et.eval vars = some (.Boolean true) →
      Expression.evalOr (pre ++ et :: post) vars = some (.Boolean true) := by
  intro pre
  induction pre with
  | nil =>
      intro et post _ hf
      simp [Expression.evalOr, hf]
  | cons e pre ih =>
      intro et post hpre hf
      have he : e.eval vars = some (.Boolean false) := hpre e (by simp)
      simp only [List.cons_append, Expression.evalOr, he]
      exact ih et post (fun e' h' => hpre e' (by simp [h'])) hf

theorem evalSum_float {V : Type} {vars : V → Val} :
    ∀ (es : List (Expression V)) (a : Rat) {v : Val},
      Expression.evalSum es vars (.Float a) = some v → ∃ f, v = .Float f := by
  intro es
  induction es with
  | nil =>
      intro a v h
      simp only [Expression.evalSum, Option.some.injEq] at h
      exact ⟨a, h.symm⟩
  | cons e es ih =>
      intro a v h
      rw [Expression.evalSum] at h
      split at h
      · exact ih _ h
      · exact ih _ h
      · exact Option.noConfusion h

theorem evalMult_float {V : Type} {vars : V → Val} :
    ∀ (es : List (Expression V)) (a : Rat) {v : Val},
      Expression.evalMult es vars (.Float a) = some v → ∃ f, v = .Float f := by
  intro es
  induction es with
  | nil =>
      intro a v h
      simp only [Expression.evalMult, Option.some.injEq] at h
      exact ⟨a, h.symm⟩
  | cons e es ih =>
      intro a v h
      rw [Expression.evalMult] at h
      split at h
      · exact ih _ h
      · exact ih _ h
      · exact Option.noConfusion h

theorem evalSum_all_int {V : Type} {vars : V → Val} :
    ∀ (es : List (Expression V)),
      (∀ e ∈ es, ∀ w, e.eval vars = some w → ∃ i, w = .Integer i) →
      ∀ (a : Int) {v : Val},
        Expression.evalSum es vars (.Integer a) = some v → ∃ i, v = .Integer i := by
  intro es
  induction es with
  | nil =>
      intro _ a v h
      simp only [Expression.evalSum, Option.some.injEq] at h
      exact ⟨a, h.symm⟩
  | cons e es ih =>
      intro hall a v h
      rw [Expression.evalSum] at h
      split at h
      · rename_i i heq
        exact ih (fun e' h' => hall e' (by simp [h'])) _ h
      · rename_i f heq
        obtain ⟨i, hi⟩ := hall e (by simp) _ heq
        exact Val.noConfusion hi
      · exact Option.noConfusion h

theorem evalMult_all_int {V : Type} {vars : V → Val} :
    ∀ (es : List (Expression V)),
      (∀ e ∈ es, ∀ w, e.eval vars = some w → ∃ i, w = .Integer i) →
      ∀ (a : Int) {v : Val},
        Expression.evalMult es vars (.Integer a) = some v → ∃ i, v = .Integer i := by
  intro es
  induction es with
  | nil =>
      intro _ a v h
      simp only [Expression.evalMult, Option.some.injEq] at h
      exact ⟨a, h.symm⟩
  | cons e es ih =>
      intro hall a v h
      rw [Expression.evalMult] at h
      split at h
      · rename_i i heq
        exact ih (fun e' h' => hall e' (by simp [h'])) _ h
      · rename_i f heq
        obtain ⟨i, hi⟩ := hall e (by simp) _ heq
        exact Val.noConfusion hi
      · exact Option.noConfusion h

theorem evalSum_exists_float {V : Type} {vars : V → Val} :
    ∀ (es : List (Expression V)),
      (∃ e ∈ es, ∀ w, e.eval vars = some w → ∃ f, w = .Float f) →
      ∀ (a : Int) {v : Val},
        Expression.evalSum es vars (.Integer a) = some v → ∃ f, v = .Float f := by
  intro es
  induction es with
  | nil =>
      rintro ⟨e, he, _⟩
      cases he
  | cons e es ih =>
      rintro ⟨ef, hef, hf⟩ a v h
      rw [Expression.evalSum] at h
      rcases List.mem_cons.mp hef with rfl | hef
      · split at h
        · rename_i i heq
          obtain ⟨f, hflt⟩ := hf _ heq
          exact Val.noConfusion hflt
        · exact evalSum_float es _ h
        · exact Option.noConfusion h
      · split at h
        · exact ih ⟨ef, hef, hf⟩ _ h
        · exact evalSum_float es _ h
        · exact Option.noConfusion h

theorem evalMult_exists_float {V : Type} {vars : V → Val} :
    ∀ (es : List (Expression V)),
      (∃ e ∈ es, ∀ w, e.eval vars = some w → ∃ f, w = .Float f) →
      ∀ (a : Int) {v : Val},
        Expression.evalMult es vars (.Integer a) = some v → ∃ f, v = .Float f := by
  intro es
  induction es with
  | nil =>
      rintro ⟨e, he, _⟩
      cases he
  | cons e es ih =>
      rintro ⟨ef, hef, hf⟩ a v h
      rw [Expression.evalMult] at h
      rcases List.mem_cons.mp hef with rfl | hef
      · split at h
        · rename_i i heq
          obtain ⟨f, hflt⟩ := hf _ heq
          exact Val.noConfusion hflt
        · exact evalMult_float es _ h
        · exact Option.noConfusion h
      · split at h
        · exact ih ⟨ef, hef, hf⟩ _ h
        · exact evalMult_float es _ h
        · exact Option.noConfusion h

theorem evalList_types {V : Type} {vars : V → Val} {c : V → Option Ty} :
    ∀ {es : List (Expression V)} {ts : List Ty} {vs : List Val},
      Expression.typeList es = .ok ts →
      Expression.contextList es c = .ok () →
      (∀ e ∈ es, ∀ t w, e.type = .ok t → e.context c = .ok () → e.eval vars = some w →
        w.type = t) →
      Expression.evalList es vars = some vs → valTypes vs = ts := by
  intro es
  induction es with
  | nil =>
      intro ts vs ht _ _ hv
      simp only [Expression.typeList, Except.ok.injEq] at ht
      simp only [Expression.evalList, Option.some.injEq] at hv
      subst ht; subst hv
      rfl
  | cons e es ih =>
      intro ts vs ht hc hel hv
      obtain ⟨t, ts0, het, hts, rfl⟩ := typeList_cons.mp ht
      simp only [Expression.contextList, except_bind_ok] at hc
      obtain ⟨x, hx, hc⟩ := hc
      simp only [Expression.evalList, option_bind_some, Option.some.injEq] at hv
      obtain ⟨w, hw, ws, hws, rfl⟩ := hv
      have h1 : w.type = t := hel e (by simp) t w het hx hw
      have h2 : valTypes ws = ts0 :=
        ih hts hc (fun e' h' => hel e' (by simp [h'])) hws
      simp [valTypes, h1, h2]

/-- Type preservation for the compiled evaluator: when a well-typed
expression whose variable declarations agree with the resolver evaluates
without panicking, the resulting value has the checked type. -/
theorem typePreservation {V : Type} :
    ∀ (e : Expression V) (t : Ty) (R : V → Val) (v : Val),
      e.type = .ok t →
      e.context (fun x => some ((R x).type)) = .ok () →
      e.eval R = some v →
      v.type = t
  | .Const val, t, R, v => by
      intro ht hc he
      simp only [Expression.type, Except.ok.injEq] at ht
      simp only [Expression.eval, Option.some.injEq] at he
      subst he
      exact ht
  | .Var var tv, t, R, v => by
      intro ht hc he
      simp only [Expression.type, Except.ok.injEq] at ht
      simp only [Expression.context] at hc
      simp only [Expression.eval, Option.some.injEq] at he
      subst he
      split at hc
      · rename_i hb
        exact ht ▸ (tyBeq_eq _ _).mp hb
      · exact Except.noConfusion hc
  | .Tuple exprs, t, R, v => by
      intro ht hc he
      simp only [Expression.type, except_bind_ok, Except.ok.injEq] at ht
      obtain ⟨ts, hts, hok⟩ := ht
      simp only [Expression.context] at hc
      simp only [Expression.eval, option_bind_some, Option.some.injEq] at he
      obtain ⟨vs, hvs, hv⟩ := he
      subst hok; subst hv
      have hel : ∀ e' ∈ exprs, ∀ t' w, e'.type = .ok t' →
          e'.context (fun x => some ((R x).type)) = .ok () → e'.eval R = some w →
          w.type = t' :=
        fun e' hm t' w h1 h2 h3 => typePreservation e' t' R w h1 h2 h3
      have hvt := evalList_types hts hc hel hvs
      simp [Val.type, hvt]
  | .Component index expr, t, R, v => by
      intro ht hc he
      simp only [Expression.type, except_bind_ok] at ht
      obtain ⟨t0, h0, ht⟩ := ht
      simp only [Expression.context] at hc
      simp only [Expression.eval, option_bind_some] at he
      obtain ⟨w, hw, he⟩ := he
      have hwt := typePreservation expr t0 R w h0 hc hw
      split at ht
      · rename_i components
        split at ht
        · rename_i c hcget
          simp only [Except.ok.injEq] at ht
          subst ht
          split at he
          · rename_i vals
            simp only [Val.type, Ty.Product.injEq] at hwt
            have hmap : List.map Val.type vals = components := by
              rw [← valTypes_eq_map]; exact hwt
            have hsome : components[index]? = some v.type := by
              rw [← hmap, List.getElem?_map, he]; rfl
            rw [hcget] at hsome
            simp only [Option.some.injEq] at hsome
            exact hsome.symm
          · exact Option.noConfusion he
        · exact Except.noConfusion ht
      · exact Except.noConfusion ht
  | .And exprs, t, R, v => by
      intro ht hc he
      simp only [Expression.type, except_bind_ok] at ht
      obtain ⟨ts, hts, hok⟩ := ht
      split at hok
      · simp only [Except.ok.injEq] at hok
        subst hok
        simp only [Expression.eval] at he
        obtain ⟨b, rfl⟩ := evalAnd_boolean he
        rfl
      · exact Except.noConfusion hok
  | .Or exprs, t, R, v => by
      intro ht hc he
      simp only [Expression.type, except_bind_ok] at ht
      obtain ⟨ts, hts, hok⟩ := ht
      split at hok
      · simp only [Except.ok.injEq] at hok
        subst hok
        simp only [Expression.eval] at he
        obtain ⟨b, rfl⟩ := evalOr_boolean he
        rfl
      · exact Except.noConfusion hok
  | .Implies lhs rhs, t, R, v => by
      intro ht hc he
      simp only [Expression.type, except_bind_ok] at ht
      obtain ⟨t0, h0, ht⟩ := ht
      split at ht
      · simp only [except_bind_ok] at ht
        obtain ⟨t1, h1, ht⟩ := ht
        split at ht
        · simp only [Except.ok.injEq] at ht
          subst ht
          simp only [Expression.eval, option_bind_some] at he
          obtain ⟨l, hl, r, hr, he⟩ := he
          split at he
          · simp only [Option.some.injEq] at he
            subst he
            rfl
          · exact Option.noConfusion he
        · exact Except.noConfusion ht
      · exact Except.noConfusion ht
  | .Not expr, t, R, v => by
      intro ht hc he
      simp only [Expression.type, except_bind_ok] at ht
      obtain ⟨t0, h0, ht⟩ := ht
      split at ht
      · simp only [Except.ok.injEq] at ht
        subst ht
        simp only [Expression.eval, option_bind_some] at he
        obtain ⟨w, hw, he⟩ := he
        split at he
        · simp only [Option.some.injEq] at he
          subst he
          rfl
        · exact Option.noConfusion he
      · exact Except.noConfusion ht
  | .Opposite expr, t, R, v => by
      intro ht hc he
      simp only [Expression.type, except_bind_ok] at ht
      obtain ⟨t0, h0, ht⟩ := ht
      simp only [Expression.context] at hc
      simp only [Expression.eval, option_bind_some] at he
      obtain ⟨w, hw, he⟩ := he
      have hwt := typePreservation expr t0 R w h0 hc hw
      split at ht
      · simp only [Except.ok.injEq] at ht
        subst ht
        split at he
        · simp only [Option.some.injEq] at he
          subst he
          rfl
        · rename_i f hf
          simp [Val.type] at hwt
        · exact Option.noConfusion he
      · simp only [Except.ok.injEq] at ht
        subst ht
        split at he
        · rename_i i hi
          simp [Val.type] at hwt
        · simp only [Option.some.injEq] at he
          subst he
          rfl
        · exact Option.noConfusion he
      · exact Except.noConfusion ht
  | .Sum exprs, t, R, v => by
      intro ht hc he
      simp only [Expression.type, except_bind_ok] at ht
      obtain ⟨ts, hts, hok⟩ := ht
      simp only [Expression.context] at hc
      simp only [Expression.eval] at he
      have hel : ∀ e' ∈ exprs, ∀ t' w, e'.type = .ok t' →
          e'.context (fun x => some ((R x).type)) = .ok () → e'.eval R = some w →
          w.type = t' :=
        fun e' hm t' w h1 h2 h3 => typePreservation e' t' R w h1 h2 h3
      split at hok
      · rename_i hall
        simp only [Except.ok.injEq] at hok
        subst hok
        have hint : ∀ e' ∈ exprs, ∀ w, e'.eval R = some w → ∃ i, w = .Integer i := by
          intro e' hm w hw
          obtain ⟨t', ht', het'⟩ := typeList_mem_left hts e' hm
          have hti : t' = .Integer := by
            have hb := List.all_eq_true.mp hall t' ht'
            cases t' <;> simp [Ty.isInteger] at hb ⊢
          subst hti
          exact val_type_integer (hel e' hm .Integer w het' (contextList_mem hc e' hm) hw)
        obtain ⟨i, rfl⟩ := evalSum_all_int exprs hint 0 he
        rfl
      · split at hok
        · rename_i hnotall hnum
          simp only [Except.ok.injEq] at hok
          subst hok
          have hexf : ∃ tf ∈ ts, tf = Ty.Float := by
            by_contra hcon
            push_neg at hcon
            apply hnotall
            apply List.all_eq_true.mpr
            intro t' ht'
            have h1 := List.all_eq_true.mp hnum t' ht'
            have h2 := hcon t' ht'
            cases t' <;> simp_all [Ty.isNumeric, Ty.isInteger]
          obtain ⟨tf, htf, rfl⟩ := hexf
          obtain ⟨ef, hef, heft⟩ := typeList_mem_right hts .Float htf
          have hfl : ∀ w, ef.eval R = some w → ∃ f, w = .Float f := fun w hw =>
            val_type_float (hel ef hef .Float w heft (contextList_mem hc ef hef) hw)
          obtain ⟨f, rfl⟩ := evalSum_exists_float exprs ⟨ef, hef, hfl⟩ 0 he
          rfl
        · exact Except.noConfusion hok
  | .Mult exprs, t, R, v => by
      intro ht hc he
      simp only [Expression.type, except_bind_ok] at ht
      obtain ⟨ts, hts, hok⟩ := ht
      simp only [Expression.context] at hc
      simp only [Expression.eval] at he
      have hel : ∀ e' ∈ exprs, ∀ t' w, e'.type = .ok t' →
          e'.context (fun x => some ((R x).type)) = .ok () → e'.eval R = some w →
          w.type = t' :=
        fun e' hm t' w h1 h2 h3 => typePreservation e' t' R w h1 h2 h3
      split at hok
      · rename_i hall
        simp only [Except.ok.injEq] at hok
        subst hok
        have hint : ∀ e' ∈ exprs, ∀ w, e'.eval R = some w → ∃ i, w = .Integer i := by
          intro e' hm w hw
          obtain ⟨t', ht', het'⟩ := typeList_mem_left hts e' hm
          have hti : t' = .Integer := by
            have hb := List.all_eq_true.mp hall t' ht'
            cases t' <;> simp [Ty.isInteger] at hb ⊢
          subst hti
          exact val_type_integer (hel e' hm .Integer w het' (contextList_mem hc e' hm) hw)
        obtain ⟨i, rfl⟩ := evalMult_all_int exprs hint 0 he
        rfl
      · split at hok
        · rename_i hnotall hnum
          simp only [Except.ok.injEq] at hok
          subst hok
          have hexf : ∃ tf ∈ ts, tf = Ty.Float := by
            by_contra hcon
            push_neg at hcon
            apply hnotall
            apply List.all_eq_true.mpr
            intro t' ht'
            have h1 := List.all_eq_true.mp hnum t' ht'
            have h2 := hcon t' ht'
            cases t' <;> simp_all [Ty.isNumeric, Ty.isInteger]
          obtain ⟨tf, htf, rfl⟩ := hexf
          obtain ⟨ef, hef, heft⟩ := typeList_mem_right hts .Float htf
          have hfl : ∀ w, ef.eval R = some w → ∃ f, w = .Float f := fun w hw =>
            val_type_float (hel ef hef .Float w heft (contextList_mem hc ef hef) hw)
          obtain ⟨f, rfl⟩ := evalMult_exists_float exprs ⟨ef, hef, hfl⟩ 0 he
          rfl
        · exact Except.noConfusion hok
  | .Mod lhs rhs, t, R, v => by
      intro ht hc he
      simp only [Expression.type, except_bind_ok] at ht
      obtain ⟨t0, h0, ht⟩ := ht
      split at ht
      · simp only [except_bind_ok] at ht
        obtain ⟨t1, h1, ht⟩ := ht
        split at ht
        · simp only [Except.ok.injEq] at ht
          subst ht
          simp only [Expression.eval, option_bind_some] at he
          obtain ⟨l, hl, r, hr, he⟩ := he
          split at he
          · split at he
            · exact Option.noConfusion he
            · simp only [Option.some.injEq] at he
              subst he
              rfl
          · exact Option.noConfusion he
        · exact Except.noConfusion ht
      · exact Except.noConfusion ht
  | .Equal lhs rhs, t, R, v => by
      intro ht hc he
      simp only [Expression.type, except_bind_ok] at ht
      obtain ⟨t0, h0, t1, h1, ht⟩ := ht
      split at ht
      · simp only [Except.ok.injEq] at ht
        subst ht
        simp only [Expression.eval, option_bind_some] at he
        obtain ⟨l, hl, r, hr, he⟩ := he
        split at he
        · simp only [Option.some.injEq] at he
          subst he
          rfl
        · simp only [Option.some.injEq] at he
          subst he
          rfl
        · exact Option.noConfusion he
      · exact Except.noConfusion ht
  | .Greater lhs rhs, t, R, v => by
      intro ht hc he
      simp only [Expression.type, except_bind_ok] at ht
      obtain ⟨t0, h0, ht⟩ := ht
      split at ht
      · simp only [except_bind_ok] at ht
        obtain ⟨t1, h1, ht⟩ := ht
        split at ht
        · simp only [Except.ok.injEq] at ht
          subst ht
          simp only [Expression.eval, option_bind_some] at he
          obtain ⟨l, hl, he⟩ := he
          split at he
          · simp only [option_bind_some] at he
            obtain ⟨r, hr, he⟩ := he
            split at he
            · simp only [Option.some.injEq] at he; subst he; rfl
            · simp only [Option.some.injEq] at he; subst he; rfl
            · exact Option.noConfusion he
          · simp only [option_bind_some] at he
            obtain ⟨r, hr, he⟩ := he
            split at he
            · simp only [Option.some.injEq] at he; subst he; rfl
            · simp only [Option.some.injEq] at he; subst he; rfl
            · exact Option.noConfusion he
          · exact Option.noConfusion he
        · exact Except.noConfusion ht
      · exact Except.noConfusion ht
  | .GreaterEq lhs rhs, t, R, v => by
      intro ht hc he
      simp only [Expression.type, except_bind_ok] at ht
      obtain ⟨t0, h0, t1, h1, ht⟩ := ht
      split at ht
      · simp only [Except.ok.injEq] at ht
        subst ht
        simp only [Expression.eval, option_bind_some] at he
        obtain ⟨l, hl, r, hr, he⟩ := he
        split at he
        · simp only [Option.some.injEq] at he
          subst he
          rfl
        · exact Option.noConfusion he
      · exact Except.noConfusion ht
  | .Less lhs rhs, t, R, v => by
      intro ht hc he
      simp only [Expression.type, except_bind_ok] at ht
      obtain ⟨t0, h0, ht⟩ := ht
      split at ht
      · simp only [except_bind_ok] at ht
        obtain ⟨t1, h1, ht⟩ := ht
        split at ht
        · simp only [Except.ok.injEq] at ht
          subst ht
          simp only [Expression.eval, option_bind_some] at he
          obtain ⟨l, hl, he⟩ := he
          split at he
          · simp only [option_bind_some] at he
            obtain ⟨r, hr, he⟩ := he
            split at he
            · simp only [Option.some.injEq] at he; subst he; rfl
            · simp only [Option.some.injEq] at he; subst he; rfl
            · exact Option.noConfusion he
          · simp only [option_bind_some] at he
            obtain ⟨r, hr, he⟩ := he
            split at he
            · simp only [Option.some.injEq] at he; subst he; rfl
            · simp only [Option.some.injEq] at he; subst he; rfl
            · exact Option.noConfusion he
          · exact Option.noConfusion he
        · exact Except.noConfusion ht
      · exact Except.noConfusion ht
  | .LessEq lhs rhs, t, R, v => by
      intro ht hc he
      simp only [Expression.type, except_bind_ok] at ht
      obtain ⟨t0, h0, t1, h1, ht⟩ := ht
      split at ht
      · simp only [Except.ok.injEq] at ht
        subst ht
        simp only [Expression.eval, option_bind_some] at he
        obtain ⟨l, hl, r, hr, he⟩ := he
        split at he
        · simp only [Option.some.injEq] at he
          subst he
          rfl
        · exact Option.noConfusion he
      · exact Except.noConfusion ht
  | .Append list element, t, R, v => by
      intro ht hc he
      simp only [Expression.type, except_bind_ok] at ht
      obtain ⟨lt, hlt, et, het, ht⟩ := ht
      simp only [Expression.context, except_bind_ok] at hc
      obtain ⟨x, hcl, hce⟩ := hc
      simp only [Expression.eval, option_bind_some] at he
      obtain ⟨lv, hlv, he⟩ := he
      have hlvt := typePreservation list lt R lv hlt hcl hlv
      split at ht
      · rename_i elements_type
        split at ht
        · simp only [Except.ok.injEq] at ht
          subst ht
          split at he
          · rename_i tl ll
            simp only [Val.type, Ty.List.injEq] at hlvt
            subst hlvt
            simp only [option_bind_some] at he
            obtain ⟨ev, hev, he⟩ := he
            split at he
            · simp only [Option.some.injEq] at he
              subst he
              rfl
            · exact Option.noConfusion he
          · exact Option.noConfusion he
        · exact Except.noConfusion ht
      · exact Except.noConfusion ht
  | .Truncate list, t, R, v => by
      intro ht hc he
      simp only [Expression.type, except_bind_ok] at ht
      obtain ⟨lt, hlt, ht⟩ := ht
      simp only [Expression.context] at hc
      simp only [Expression.eval, option_bind_some] at he
      obtain ⟨lv, hlv, he⟩ := he
      have hlvt := typePreservation list lt R lv hlt hc hlv
      split at ht
      · rename_i t0
        simp only [Except.ok.injEq] at ht
        subst ht
        split at he
        · rename_i tl ll
          simp only [Val.type, Ty.List.injEq] at hlvt
          subst hlvt
          split at he
          · exact Option.noConfusion he
          · simp only [Option.some.injEq] at he
            subst he
            rfl
        · exact Option.noConfusion he
      · exact Except.noConfusion ht
  | .Len list, t, R, v => by
      intro ht hc he
      simp only [Expression.type, except_bind_ok] at ht
      obtain ⟨lt, hlt, ht⟩ := ht
      split at ht
      · simp only [Except.ok.injEq] at ht
        subst ht
        simp only [Expression.eval, option_bind_some] at he
        obtain ⟨lv, hlv, he⟩ := he
        split at he
        · simp only [Option.some.injEq] at he
          subst he
          rfl
        · exact Option.noConfusion he
      · exact Except.noConfusion ht
termination_by e _ _ _ => sizeOf e
decreasing_by
  all_goals simp_wf
  all_goals try (have hsz := List.sizeOf_lt_of_mem hm; omega)
  all_goals omega

mutual

theorem default_value_type : ∀ t : Ty, (Ty.default_value t).type = t
  | .Boolean => rfl
  | .Integer => rfl
  | .Float => rfl
  | .Product ts => by
      simp only [Ty.default_value, Val.type, defaultValues_types ts]
  | .List t => rfl

theorem defaultValues_types : ∀ ts : List Ty, valTypes (defaultValues ts) = ts
  | [] => rfl
  | t :: ts => by
      simp only [defaultValues, valTypes, default_value_type t, defaultValues_types ts]

end

/-! The claims. -/

/-- C1 counterexample: the expression `Truncate(Const(List Int, []))` is
well-typed with type `List Int` and trivially consistent with any resolver,
yet evaluating its compiled form yields no value at all (the evaluator
panics on the empty list), so evaluation does not yield a value of the
checked type as the claim states. -/
theorem c1_counterexample :
    (Expression.Truncate (.Const (.List .Integer [])) : Expression String).type
        = .ok (.List .Integer)
    ∧ (Expression.Truncate (.Const (.List .Integer [])) : Expression String).context
        (fun x => some (((fun _ : String => Val.Integer 0) x).type)) = .ok ()
    ∧ ¬ ∃ v : Val, (Expression.Truncate (.Const (.List .Integer [])) : Expression String).eval
        (fun _ => Val.Integer 0) = some v :=
  ⟨rfl, rfl, fun ⟨_, hv⟩ => Option.noConfusion hv⟩

/-- C1 (amended): for every well-typed expression (`type e = ok t`) and
every resolver consistent with its variable declarations, if evaluating the
compiled form returns a value at all, then that value has type `t`
(evaluation may instead fail hard, e.g. on `Truncate` of an empty list, or
on a well-typed `GreaterEq` over booleans). -/
theorem c1_type_preservation :
    ∀ (V : Type) (e : Expression V) (t : Ty) (R : V → Val) (v : Val),
      e.type = .ok t →
      e.context (fun x => some ((R x).type)) = .ok () →
      e.eval R = some v →
      v.type = t :=
  fun _ e t R v ht hc he => typePreservation e t R v ht hc he

/-- C1 witness: type preservation applied to the concrete S1 expression
with resolver `x ↦ Int 4`. -/
theorem c1_type_preservation_witness : (Val.Float 5).type = Ty.Float :=
  c1_type_preservation String exprS1 .Float (fun _ => .Integer 4) (.Float 5) rfl rfl
    (by simp [exprS1, Expression.eval, Expression.evalSum, Expression.evalMult])

/-- C2: at the claim's own inputs the code disagrees with the claim: the
compiled `Mult` folds multiplicatively from `Val::Integer(0)`, so the inner
product evaluates to `0.0` and the whole expression evaluates to
`Float 5.0` under `x ↦ Int 4` (resp. `Float 1.0` under `x ↦ Int 0`), not
`Float 11.0` (resp. `Float 7.0`). -/
theorem c2_eval_at_failing_inputs :
    exprS1.type = .ok .Float
    ∧ exprS1.eval resolverX4 = some (.Float 5)
    ∧ exprS1.eval resolverX0 = some (.Float 1)
    ∧ exprS1.eval resolverX4 ≠ some (.Float 11)
    ∧ exprS1.eval resolverX0 ≠ some (.Float 7) := by
  refine ⟨rfl, ?_, ?_, ?_, ?_⟩ <;>
    simp [exprS1, resolverX4, resolverX0, Expression.eval, Expression.evalSum,
      Expression.evalMult]

/-- C3: the compiled evaluator of the empty product `Mult([])` yields
`Int 0` under every resolver, while the `iter::Product` smart-constructor
fallback for an empty product yields the expression `Const(Int 1)`. -/
theorem c3_empty_mult :
    (∀ (V : Type) (R : V → Val),
        (Expression.Mult ([] : List (Expression V))).eval R = some (.Integer 0))
    ∧ ∀ (V : Type), Expression.product ([] : List (Expression V)) = .Const (.Integer 1) :=
  ⟨fun _ _ => rfl, fun _ => rfl⟩

/-- C4: recovering the type of a default value gives back the type:
`Val::r#type(Type::default_value(t)) = t` for every `t`; in particular the
default of `List(t)` is the empty list still carrying element type `t`. -/
theorem c4_default_value_type :
    (∀ t : Ty, (Ty.default_value t).type = t)
    ∧ ∀ t : Ty, Ty.default_value (.List t) = .List t []
      ∧ (Val.List t []).type = .List t :=
  ⟨default_value_type, fun _ => ⟨rfl, rfl⟩⟩

/-- C5: the compiled `And` and `Or` loops evaluate children left-to-right
and short-circuit: with all earlier children true (resp. false), a child
evaluating to false (resp. true) fixes the result to `Bool false` (resp.
`Bool true`) whatever the later children are — in particular
`And([Const(Bool false), e2])` evaluates to `Bool false` for every `e2`,
even one whose own evaluation would fail. -/
theorem c5_short_circuit :
    (∀ (V : Type) (pre post : List (Expression V)) (ef : Expression V) (R : V → Val),
        (∀ e ∈ pre, e.eval R = some (.Boolean true)) →
        ef.eval R = some (.Boolean false) →
        (Expression.And (pre ++ ef :: post)).eval R = some (.Boolean false))
    ∧ (∀ (V : Type) (pre post : List (Expression V)) (et : Expression V) (R : V → Val),
        (∀ e ∈ pre, e.eval R = some (.Boolean false)) →
        et.eval R = some (.Boolean true) →
        (Expression.Or (pre ++ et :: post)).eval R = some (.Boolean true))
    ∧ ∀ (V : Type) (e2 : Expression V) (R : V → Val),
        (Expression.And [.Const (.Boolean false), e2]).eval R = some (.Boolean false) := by
  refine ⟨?_, ?_, fun _ _ _ => rfl⟩
  · intro V pre post ef R hpre hf
    simpa [Expression.eval] using evalAnd_shortcircuit pre ef post hpre hf
  · intro V pre post et R hpre ht
    simpa [Expression.eval] using evalOr_shortcircuit pre et post hpre ht

/-- C5 witness: a one-true-then-false conjunction whose third child would
panic (truncating an empty list) still evaluates to `Bool false`. -/
theorem c5_short_circuit_witness :
    (Expression.And [.Const (.Boolean true), .Const (.Boolean false),
        .Truncate (.Const (.List .Integer []))] : Expression String).eval
      (fun _ => .Integer 0) = some (.Boolean false) :=
  c5_short_circuit.1 String [.Const (.Boolean true)]
    [.Truncate (.Const (.List .Integer []))] (.Const (.Boolean false))
    (fun _ => .Integer 0)
    (by intro e he; simp only [List.mem_singleton] at he; subst he; rfl) rfl

/-- C6: compiled `Append` re-checks at run time that the element's type
equals the list's element type, and compiled `Truncate` re-checks
non-emptiness; both fail hard (yield no value) on violation, in particular
`Truncate(Const(List Int, []))`. -/
theorem c6_runtime_checks :
    (∀ (V : Type) (l x : Expression V) (R : V → Val) (t : Ty) (vs : List Val) (xv : Val),
        l.eval R = some (.List t vs) → x.eval R = some xv → xv.type ≠ t →
        (Expression.Append l x).eval R = none)
    ∧ (∀ (V : Type) (l : Expression V) (R : V → Val) (t : Ty),
        l.eval R = some (.List t []) → (Expression.Truncate l).eval R = none)
    ∧ ∀ (V : Type) (R : V → Val),
        (Expression.Truncate (.Const (.List .Integer []))).eval R = none := by
  refine ⟨?_, ?_, fun _ _ => rfl⟩
  · intro V l x R t vs xv hl hx hne
    simp [Expression.eval, hl, hx, tyBeq_eq, hne]
  · intro V l R t hl
    simp [Expression.eval, hl]

/-- C6 witness: appending a boolean to an integer list fails hard. -/
theorem c6_runtime_checks_witness :
    (Expression.Append (.Const (.List .Integer [])) (.Const (.Boolean true))
        : Expression String).eval (fun _ => .Integer 0) = none :=
  c6_runtime_checks.1 String (.Const (.List .Integer [])) (.Const (.Boolean true))
    (fun _ => .Integer 0) .Integer [] (.Boolean true) rfl rfl (by decide)

theorem cmpSame_type_iff {V : Type} (a b : Expression V) (r : Except TypeError Ty)
    (hr : r = do
      let type_0 ← a.type
      let type_1 ← b.type
      if (type_0.isInteger || type_0.isBoolean) && tyBeq type_0 type_1 then .ok .Boolean
      else .error .TypeMismatch) :
    r = .ok .Boolean ↔
      ∃ t, a.type = .ok t ∧ b.type = .ok t ∧ (t = Ty.Integer ∨ t = Ty.Boolean) := by
  subst hr
  constructor
  · intro h
    simp only [except_bind_ok] at h
    obtain ⟨t0, h0, t1, h1, h⟩ := h
    split at h
    · rename_i hcond
      simp only [Bool.and_eq_true, Bool.or_eq_true] at hcond
      obtain ⟨hib, hbeq⟩ := hcond
      have ht01 : t0 = t1 := (tyBeq_eq _ _).mp hbeq
      subst ht01
      refine ⟨t0, h0, h1, ?_⟩
      rcases hib with hi | hb
      · left; cases t0 <;> simp [Ty.isInteger] at hi ⊢
      · right; cases t0 <;> simp [Ty.isBoolean] at hb ⊢
    · exact Except.noConfusion h
  · rintro ⟨t, ha, hb, ht⟩
    rcases ht with rfl | rfl <;>
      simp [ha, hb, Bind.bind, Except.bind, Ty.isInteger, Ty.isBoolean, tyBeq]

theorem cmpNum_type_iff {V : Type} (a b : Expression V) (r : Except TypeError Ty)
    (hr : r = do
      let t0 ← a.type
      if t0.isNumeric then
        let t1 ← b.type
        if t1.isNumeric then .ok .Boolean else .error .TypeMismatch
      else .error .TypeMismatch) :
    r = .ok .Boolean ↔
      ((a.type = .ok .Integer ∨ a.type = .ok .Float)
        ∧ (b.type = .ok .Integer ∨ b.type = .ok .Float)) := by
  subst hr
  constructor
  · intro h
    simp only [except_bind_ok] at h
    obtain ⟨t0, h0, h⟩ := h
    split at h
    · rename_i hn0
      simp only [except_bind_ok] at h
      obtain ⟨t1, h1, h⟩ := h
      split at h
      · rename_i hn1
        constructor
        · cases t0 <;> simp [Ty.isNumeric] at hn0 <;> simp [h0]
        · cases t1 <;> simp [Ty.isNumeric] at hn1 <;> simp [h1]
      · exact Except.noConfusion h
    · exact Except.noConfusion h
  · rintro ⟨ha, hb⟩
    rcases ha with ha | ha <;> rcases hb with hb | hb <;>
      simp [ha, hb, Bind.bind, Except.bind, Ty.isNumeric]

/-- C7: type-checking of comparisons is asymmetric: `Equal`, `GreaterEq`
and `LessEq` check to `Bool` exactly when both operands have one same type
that is `Int` or `Bool` (two `Float` operands are rejected with
`TypeMismatch`), while `Greater` and `Less` check to `Bool` exactly when
each operand independently has type `Int` or `Float`. -/
theorem c7_comparison_typing :
    (∀ (V : Type) (a b : Expression V),
        ((Expression.Equal a b).type = .ok .Boolean ↔
          ∃ t, a.type = .ok t ∧ b.type = .ok t ∧ (t = Ty.Integer ∨ t = Ty.Boolean))
        ∧ ((Expression.GreaterEq a b).type = .ok .Boolean ↔
          ∃ t, a.type = .ok t ∧ b.type = .ok t ∧ (t = Ty.Integer ∨ t = Ty.Boolean))
        ∧ ((Expression.LessEq a b).type = .ok .Boolean ↔
          ∃ t, a.type = .ok t ∧ b.type = .ok t ∧ (t = Ty.Integer ∨ t = Ty.Boolean))
        ∧ (a.type = .ok .Float → b.type = .ok .Float →
            (Expression.Equal a b).type = .error .TypeMismatch))
    ∧ ∀ (V : Type) (a b : Expression V),
        ((Expression.Greater a b).type = .ok .Boolean ↔
          ((a.type = .ok .Integer ∨ a.type = .ok .Float)
            ∧ (b.type = .ok .Integer ∨ b.type = .ok .Float)))
        ∧ ((Expression.Less a b).type = .ok .Boolean ↔
          ((a.type = .ok .Integer ∨ a.type = .ok .Float)
            ∧ (b.type = .ok .Integer ∨ b.type = .ok .Float))) := by
  refine ⟨fun V a b => ⟨?_, ?_, ?_, ?_⟩, fun V a b => ⟨?_, ?_⟩⟩
  · exact cmpSame_type_iff a b _ rfl
  · exact cmpSame_type_iff a b _ rfl
  · exact cmpSame_type_iff a b _ rfl
  · intro ha hb
    simp [Expression.type, ha, hb, Bind.bind, Except.bind, Ty.isInteger, Ty.isBoolean]
  · exact cmpNum_type_iff a b _ rfl
  · exact cmpNum_type_iff a b _ rfl

/-- C7 witness: `Equal` over two float constants is rejected with
`TypeMismatch`. -/
theorem c7_comparison_typing_witness :
    (Expression.Equal (.Const (.Float 0)) (.Const (.Float 0)) : Expression String).type
      = .error .TypeMismatch :=
  (c7_comparison_typing.1 String (.Const (.Float 0)) (.Const (.Float 0))).2.2.2 rfl rfl

/-- C8 counterexample: for `e = Not(Not(Const(Bool true)))` the smart
constructor strips rather than wraps, so `!!e = Const(Bool true) ≠ e`,
refuting the claim that `!!e = e` holds for every expression. -/
theorem c8_counterexample :
    ((Expression.Not (.Not (.Const (.Boolean true))) : Expression String).notExpr).notExpr
      ≠ Expression.Not (.Not (.Const (.Boolean true))) :=
  fun h => Expression.noConfusion h

/-- C8 (amended): double application of the `Not` (resp. `Neg`) smart
constructor is the identity on every expression that is not itself of the
shape `Not(Not(_))` (resp. `Opposite(Opposite(_))`); on those shapes two
applications strip the two constructors instead. -/
theorem c8_double_negation :
    (∀ (V : Type) (e : Expression V), (∀ s, e ≠ .Not (.Not s)) →
        (e.notExpr).notExpr = e)
    ∧ ∀ (V : Type) (e : Expression V), (∀ s, e ≠ .Opposite (.Opposite s)) →
        (e.negExpr).negExpr = e := by
  constructor
  · intro V e hne
    cases e
    case Not sub =>
      cases sub
      case Not s => exact absurd rfl (hne s)
      all_goals rfl
    all_goals rfl
  · intro V e hne
    cases e
    case Opposite sub =>
      cases sub
      case Opposite s => exact absurd rfl (hne s)
      all_goals rfl
    all_goals rfl

/-- C8 witness: double negation on simple constants. -/
theorem c8_double_negation_witness :
    ((Expression.Const (.Boolean true) : Expression String).notExpr).notExpr
        = .Const (.Boolean true)
    ∧ ((Expression.Const (.Integer 1) : Expression String).negExpr).negExpr
        = .Const (.Integer 1) :=
  ⟨c8_double_negation.1 String (.Const (.Boolean true)) (fun _ h => Expression.noConfusion h),
   c8_double_negation.2 String (.Const (.Integer 1)) (fun _ h => Expression.noConfusion h)⟩

/-- C9: the compiled `Var(v, t)` closure returns the resolver's value
unchecked: the declared type `t` is ignored at evaluation and no failure
occurs even when the resolver's value has a different type. -/
theorem c9_var_unchecked :
    ∀ (V : Type) (v : V) (t : Ty) (R : V → Val),
      (Expression.Var v t).eval R = some (R v) :=
  fun _ _ _ _ => rfl

/-- C10: `Expression::component` on a literal tuple indexes immediately:
it yields `args[i]` when `i < |args|` and fails hard (out-of-bounds
indexing) when `i ≥ |args|`; on any non-`Tuple` expression it defers to a
`Component(i, e)` node without failure. -/
theorem c10_component :
    (∀ (V : Type) (args : List (Expression V)) (index : Nat) (h : index < args.length),
        (Expression.Tuple args).component index = some args[index])
    ∧ (∀ (V : Type) (args : List (Expression V)) (index : Nat),
        args.length ≤ index → (Expression.Tuple args).component index = none)
    ∧ ∀ (V : Type) (e : Expression V) (index : Nat), (∀ args, e ≠ .Tuple args) →
        e.component index = some (.Component index e) := by
  refine ⟨?_, ?_, ?_⟩
  · intro V args index h
    simp [Expression.component, List.getElem?_eq_getElem h]
  · intro V args index h
    simp [Expression.component, List.getElem?_eq_none_iff.mpr h]
  · intro V e index hne
    cases e
    case Tuple args => exact absurd rfl (hne args)
    all_goals rfl

/-- C10 witness: indexing a two-element literal tuple in and out of
bounds, and deferring on a non-tuple. -/
theorem c10_component_witness :
    (Expression.Tuple [.Const (.Integer 7), .Const (.Boolean true)]
        : Expression String).component 1 = some (.Const (.Boolean true))
    ∧ (Expression.Tuple [.Const (.Integer 7)] : Expression String).component 3 = none
    ∧ (Expression.Const (.Integer 7) : Expression String).component 0
        = some (.Component 0 (.Const (.Integer 7))) :=
  ⟨c10_component.1 String [.Const (.Integer 7), .Const (.Boolean true)] 1 (by decide),
   c10_component.2.1 String [.Const (.Integer 7)] 3 (by decide),
   c10_component.2.2 String (.Const (.Integer 7)) 0 (fun _ h => Expression.noConfusion h)⟩
